import Mathlib

/-!
Verification of the marctable MARC-to-table pipeline: a shallow embedding of
the Avram schema model (marctable/marc.py), the rule compiler, record
projector, batching pipeline and sink column schemas (marctable/utils.py),
together with proofs about them.

Python strings are embedded as Lean `String`, Python dicts (which preserve
insertion order, and keep the original position on key overwrite) as
association lists with `dictGet`/`dictSet`, Python `set(list(...))` of
subfield codes as a duplicate-free `List Char` (iteration order of a Python
set is unspecified; the deduplicated list order stands in for it), raising
code as `Except String`, and `None`-returning code as `Option`.
-/

set_option linter.unusedVariables false

namespace Marctable

/-- Avram schema subfield definition (marc.py, class Subfield). -/
structure Subfield where
  code : Char
  label : String
  repeatable : Bool
deriving DecidableEq, Repr

/-- Avram schema field definition (marc.py, class Field). -/
structure Field where
  tag : String
  label : String
  subfields : List Subfield
  repeatable : Bool
deriving DecidableEq, Repr

/-- Avram schema document (marc.py, class MARC): ordered list of field definitions. -/
structure MARC where
  fields : List Field
deriving DecidableEq, Repr

/-- Message of marc.py SchemaFieldError raised by MARC.get_field. -/
def schemaFieldErrorMsg (tag : String) : String :=
  tag ++ " is not a defined field tag in Avram schema"

/-- Message of marc.py SchemaSubfieldError raised by Field.get_subfield. -/
def schemaSubfieldErrorMsg (code : Char) (tag : String) : String :=
  String.singleton code ++ " is not a valid subfield in field " ++ tag

/-- MARC.get_field (marc.py): first field with the given tag, as an Option
(the Python method raises SchemaFieldError when no field matches). -/
def MARC.get_field (m : MARC) (tag : String) : Option Field :=
  m.fields.find? (fun f => f.tag == tag)

/-- MARC.get_field with the raised SchemaFieldError made explicit. -/
def MARC.get_fieldE (m : MARC) (tag : String) : Except String Field :=
  match m.get_field tag with
  | some f => .ok f
  | none => .error (schemaFieldErrorMsg tag)

/-- Field.get_subfield (marc.py): first subfield with the given code, as an
Option (the Python method raises SchemaSubfieldError when none matches). -/
def Field.get_subfield (f : Field) (code : Char) : Option Subfield :=
  f.subfields.find? (fun sf => sf.code == code)

/-- Field.get_subfield with the raised SchemaSubfieldError made explicit. -/
def Field.get_subfieldE (f : Field) (code : Char) : Except String Subfield :=
  match f.get_subfield code with
  | some sf => .ok sf
  | none => .error (schemaSubfieldErrorMsg code f.tag)

/-- MARC.get_subfield (marc.py) with raised errors made explicit: looks up the
field (SchemaFieldError if absent) and then the subfield code under it. -/
def MARC.get_subfieldE (m : MARC) (tag : String) (code : Char) : Except String Subfield := do
  let f ← m.get_fieldE tag
  f.get_subfieldE code

/-- MARC.get_subfield as an Option. -/
def MARC.get_subfield (m : MARC) (tag : String) (code : Char) : Option Subfield :=
  (m.get_subfieldE tag code).toOption

/-- One subfield occurrence of a decoded pymarc data field: (code, value). -/
structure PySubfield where
  code : Char
  value : String
deriving DecidableEq, Repr

/-- Decoded pymarc field: a control field carries a raw data payload (possibly
absent), a data field carries an ordered list of subfield occurrences. -/
inductive PyField where
  | control (tag : String) (data : Option String)
  | dataField (tag : String) (subfields : List PySubfield)
deriving DecidableEq, Repr

/-- Tag of a decoded field. -/
def PyField.tag : PyField → String
  | .control t _ => t
  | .dataField t _ => t

/-- Subfield occurrences of a decoded field (a control field has none). -/
def PyField.subfields : PyField → List PySubfield
  | .control _ _ => []
  | .dataField _ sfs => sfs

/-- Decoded pymarc record: ordered list of decoded fields. -/
structure PyRecord where
  fields : List PyField
deriving DecidableEq, Repr

/-- A Python cell value in a projected row: a single string or a list of strings. -/
inductive PyValue where
  | str (s : String)
  | list (l : List String)
deriving DecidableEq, Repr

/-- Whether a cell value is a Python list. -/
def PyValue.isList : PyValue → Bool
  | .str _ => false
  | .list _ => true

/-- Association-list embedding of a Python dict lookup (d.get / d[k]). -/
def dictGet {α : Type} : List (String × α) → String → Option α
  | [], _ => none
  | (k', v) :: rest, k => if k' = k then some v else dictGet rest k

/-- Association-list embedding of a Python dict assignment d[k] = v: an
existing key keeps its position, a new key is appended at the end. -/
def dictSet {α : Type} : List (String × α) → String → α → List (String × α)
  | [], k, v => [(k, v)]
  | (k', v') :: rest, k, v =>
      if k' = k then (k, v) :: rest else (k', v') :: dictSet rest k v

/-- Compiled mapping (utils.py _mapping result): field tag to None (whole
field) or to the requested subfield-code set. -/
abbrev Mapping := List (String × Option (List Char))

/-- Projected row: Python dict from column key to cell value. -/
abbrev Row := List (String × PyValue)

/-- The `" ".join(...)` of Python, i.e. String.intercalate with a single space. -/
def _stringify_data (sfs : List PySubfield) : String :=
  String.intercalate " " (sfs.map PySubfield.value)

/-- utils.py _stringify_field: a control field stringifies to its raw data
payload, a data field to its subfield values joined by single spaces. This
embeds the src/marctable copy of the repository, whose control branch
substitutes the empty string for an absent (None) payload
(`field.data if field.data is not None else ""`); the other copy returns the
payload unchanged, which only differs when the payload is absent. -/
def _stringify_field : PyField → String
  | .control _ d => d.getD ""
  | .dataField _ sfs => _stringify_data sfs

/-- First three characters of a mapping rule (`rule[0:3]`). -/
def tagOfRule (rule : String) : String :=
  ⟨rule.data.take 3⟩

/-- Remaining characters of a mapping rule deduplicated
(`set(list(rule[3:]))`); the list order stands in for the set's unspecified
iteration order. -/
def subfieldsOfRule (rule : String) : List Char :=
  (rule.data.drop 3).eraseDups

/-- The mapping value a rule contributes (`subfields or None`). -/
def valueOfRule (rule : String) : Option (List Char) :=
  if (subfieldsOfRule rule).isEmpty then none else some (subfieldsOfRule rule)

/-- The subfield-code validation loop of utils.py _mapping: each requested
code is looked up with marc.get_subfield, whose SchemaSubfieldError (or
SchemaFieldError) propagates. -/
def checkSubfields (marc : MARC) (tag : String) : List Char → Except String Unit
  | [] => .ok ()
  | c :: cs => do
    let _ ← marc.get_subfieldE tag c
    checkSubfields marc tag cs

/-- Main loop of utils.py _mapping. Note that `marc.get_field` and
`marc.get_subfield` raise on an unknown tag or code, so the two
`raise Exception("unknown MARC field/subfield in mapping rule: ...")`
statements guarded by `is None` checks in the source are unreachable; the
surfaced errors are the SchemaFieldError / SchemaSubfieldError messages. -/
def _mapping_go (marc : MARC) : List String → Mapping → Except String Mapping
  | [], m => .ok m
  | rule :: rest, m => do
    let _ ← marc.get_fieldE (tagOfRule rule)
    let _ ← checkSubfields marc (tagOfRule rule) (subfieldsOfRule rule)
    _mapping_go marc rest (dictSet m (tagOfRule rule) (valueOfRule rule))

/-- utils.py _mapping: an empty rule list is replaced by the list of all
schema field tags; each rule is validated against the schema and written
into the mapping dict (a later rule for the same tag overwrites). -/
def _mapping (marc : MARC) (rules : List String) : Except String Mapping :=
  let rules := if rules.length = 0 then marc.fields.map Field.tag else rules
  _mapping_go marc rules []

/-- Whole-field branch of the projection loop in utils.py records_iter
(mapping value None): key F<tag>; a repeatable field appends the stringified
field to the list at the key (asserting the present value is a list), a
non-repeatable one overwrites the scalar. -/
def projectWholeField (marc : MARC) (r : Row) (field : PyField) : Except String Row := do
  let f ← marc.get_fieldE field.tag
  if f.repeatable then
    match (dictGet r ("F" ++ field.tag)).getD (.list []) with
    | .str _ => .error "Repeatable field contains a string instead of a list"
    | .list lst =>
        .ok (dictSet r ("F" ++ field.tag) (.list (lst ++ [_stringify_field field])))
  else
    .ok (dictSet r ("F" ++ field.tag) (.str (_stringify_field field)))

/-- Subfield branch of the projection loop in utils.py records_iter (mapping
value a code set): for each subfield occurrence with a requested code, key
F<tag><code>; a repeatable subfield appends its value to the list at the key
(asserting the present value is a list), a non-repeatable one overwrites. -/
def projectSubfields (marc : MARC) (tag : String) (codes : List Char) :
    List PySubfield → Row → Except String Row
  | [], r => .ok r
  | sf :: rest, r =>
    if sf.code ∈ codes then do
      let sd ← marc.get_subfieldE tag sf.code
      if sd.repeatable then
        match (dictGet r ("F" ++ tag ++ String.singleton sf.code)).getD (.list []) with
        | .str _ => .error "Repeatable field contains a string instead of list"
        | .list lst =>
            projectSubfields marc tag codes rest
              (dictSet r ("F" ++ tag ++ String.singleton sf.code)
                (.list (lst ++ [sf.value])))
      else
        projectSubfields marc tag codes rest
          (dictSet r ("F" ++ tag ++ String.singleton sf.code) (.str sf.value))
    else
      projectSubfields marc tag codes rest r

/-- Per-field dispatch of the projection loop: skip an unmapped tag,
otherwise take the whole-field or the subfield branch. -/
def projectField (marc : MARC) (mapping : Mapping) (r : Row) (field : PyField) :
    Except String Row :=
  match dictGet mapping field.tag with
  | none => .ok r
  | some none => projectWholeField marc r field
  | some (some codes) => projectSubfields marc field.tag codes field.subfields r

/-- The projection loop of utils.py records_iter over the fields of one
record, threading the row dict. -/
def projectFields (marc : MARC) (mapping : Mapping) :
    List PyField → Row → Except String Row
  | [], r => .ok r
  | f :: fs, r => do
    projectFields marc mapping fs (← projectField marc mapping r f)

/-- Projection of one decoded record to a row (utils.py records_iter body,
starting from the empty dict `r = {}`). -/
def projectRecord (marc : MARC) (mapping : Mapping) (record : PyRecord) :
    Except String Row :=
  projectFields marc mapping record.fields []

/-- Batching loop of utils.py records_iter: a None input element is a record
pymarc could not parse and is skipped; each projected row is appended to the
current batch, which is yielded once `batch > 0 and len(rows) == batch`; a
nonempty final batch is yielded at end of input. -/
def records_iter_go (marc : MARC) (mapping : Mapping) :
    List (Option PyRecord) → List Row → Int → Except String (List (List Row))
  | [], rows, _ => .ok (if rows.length > 0 then [rows] else [])
  | none :: rest, rows, batch => records_iter_go marc mapping rest rows batch
  | some rec :: rest, rows, batch => do
    let r ← projectRecord marc mapping rec
    if 0 < batch ∧ ((rows ++ [r]).length : Int) = batch then do
      let out ← records_iter_go marc mapping rest [] batch
      .ok ((rows ++ [r]) :: out)
    else
      records_iter_go marc mapping rest (rows ++ [r]) batch

/-- utils.py records_iter: compile the mapping, then run the projection and
batching loop over the decoded input stream. -/
def records_iter (marc : MARC) (rules : List String) (input : List (Option PyRecord))
    (batch : Int) : Except String (List (List Row)) := do
  let mapping ← _mapping marc rules
  records_iter_go marc mapping input [] batch

/-- utils.py _columns: the ordered column list implied by a mapping, F<tag>
for a whole-field entry and F<tag><code> per requested subfield code. -/
def _columns : Mapping → List String
  | [] => []
  | (field_tag, none) :: rest => ("F" ++ field_tag) :: _columns rest
  | (field_tag, some codes) :: rest =>
      (codes.map fun sf => "F" ++ field_tag ++ String.singleton sf) ++ _columns rest

/-- Minimal stand-in for a pandas DataFrame: the fixed column list plus the
projected rows of one batch. -/
structure DataFrame where
  columns : List String
  records : List Row
deriving DecidableEq, Repr

/-- utils.py dataframe_iter: one DataFrame per batch of records_iter, with
the column list computed from the compiled mapping. -/
def dataframe_iter (marc : MARC) (rules : List String) (input : List (Option PyRecord))
    (batch : Int) : Except String (List DataFrame) := do
  let mapping ← _mapping marc rules
  let batches ← records_iter marc rules input batch
  .ok (batches.map fun b => { columns := _columns mapping, records := b })

/-- utils.py to_dataframe: `next(dataframe_iter(marc_input, rules, batch=0))`.
The head of the batch list models the generator's first yield; `none` models
the StopIteration raised by `next` on an exhausted iterator. -/
def to_dataframe (marc : MARC) (rules : List String) (input : List (Option PyRecord)) :
    Except String (Option DataFrame) :=
  (dataframe_iter marc rules input 0).map List.head?

/-- The pyarrow column types used by utils.py _make_parquet_schema. -/
inductive ArrowType where
  | string
  | listOfString
deriving DecidableEq, Repr

/-- Inner loop of utils.py _make_parquet_schema over a requested subfield-code
set. The source appends `(f"F{field_tag}{sf}", ...)` where `sf` is the
Subfield object fetched with marc.get_subfield, not the code `sf_code`, so
the column name interpolates Python's default object repr, abstracted here
as the parameter objRepr. -/
def parquetSubCols (marc : MARC) (objRepr : Subfield → String) (field_tag : String) :
    List Char → Except String (List (String × ArrowType))
  | [] => .ok []
  | sf_code :: rest => do
    let sf ← marc.get_subfieldE field_tag sf_code
    let tail ← parquetSubCols marc objRepr field_tag rest
    .ok (("F" ++ field_tag ++ objRepr sf,
          if sf.repeatable then ArrowType.listOfString else ArrowType.string) :: tail)

/-- Outer loop of utils.py _make_parquet_schema over the compiled mapping. -/
def parquetCols (marc : MARC) (objRepr : Subfield → String) :
    Mapping → Except String (List (String × ArrowType))
  | [] => .ok []
  | (field_tag, none) :: rest => do
    let f ← marc.get_fieldE field_tag
    let tail ← parquetCols marc objRepr rest
    .ok (("F" ++ field_tag,
          if f.repeatable then ArrowType.listOfString else ArrowType.string) :: tail)
  | (field_tag, some codes) :: rest => do
    let head ← parquetSubCols marc objRepr field_tag codes
    let tail ← parquetCols marc objRepr rest
    .ok (head ++ tail)

/-- utils.py _make_parquet_schema: the typed parquet column schema derived
from the rules, parameterized by the Python object repr used for the
Subfield interpolation slip. -/
def _make_parquet_schema (marc : MARC) (rules : List String)
    (objRepr : Subfield → String) : Except String (List (String × ArrowType)) := do
  let mapping ← _mapping marc rules
  parquetCols marc objRepr mapping

/-- Subfield occurrences with a given code in one field, in field order
(specification-side description of what the projector collects). -/
def subOccs (c : Char) : List PySubfield → List String
  | [] => []
  | sf :: rest =>
      if sf.code = c then sf.value :: subOccs c rest else subOccs c rest

/-- Subfield occurrences with a given code across the fields with a given
tag, in record-then-field order. -/
def fieldOccs (tag : String) (c : Char) : List PyField → List String
  | [] => []
  | f :: fs =>
      if f.tag = tag then subOccs c f.subfields ++ fieldOccs tag c fs
      else fieldOccs tag c fs

/-- All occurrences of subfield code c under fields with the given tag in a
record, in source order. -/
def occsSub (record : PyRecord) (tag : String) (c : Char) : List String :=
  fieldOccs tag c record.fields

/-- Stringified occurrences of fields with a given tag, in record order. -/
def tagFieldOccs (marcTag : String) : List PyField → List String
  | [] => []
  | f :: fs =>
      if f.tag = marcTag then _stringify_field f :: tagFieldOccs marcTag fs
      else tagFieldOccs marcTag fs

/-- All schema field tags are exactly three characters long (stated invariant
of the Avram schema document, true of the shipped marc.json). -/
def TagsLen3 (marc : MARC) : Prop :=
  ∀ f ∈ marc.fields, f.tag.length = 3

/-- Well-formedness of a compiled mapping against the schema: every mapped
tag resolves, and every requested code resolves under its tag. -/
def MappingWF (marc : MARC) (mapping : Mapping) : Prop :=
  ∀ tag v, dictGet mapping tag = some v →
    (marc.get_field tag).isSome ∧
      ∀ codes, v = some codes → ∀ c ∈ codes, (marc.get_subfield tag c).isSome

/-- Row classification invariant: every value present in the row sits at a
key governed by the mapping, and it is a Python list exactly when the
governing schema definition is repeatable. -/
def GoodRow (marc : MARC) (mapping : Mapping) (r : Row) : Prop :=
  ∀ key value, dictGet r key = some value →
    (∃ tag f, dictGet mapping tag = some none ∧ marc.get_field tag = some f ∧
      key = "F" ++ tag ∧ value.isList = f.repeatable) ∨
    (∃ tag codes c sd, dictGet mapping tag = some (some codes) ∧ c ∈ codes ∧
      marc.get_subfield tag c = some sd ∧
      key = "F" ++ tag ++ String.singleton c ∧ value.isList = sd.repeatable)

/-- Naive substring test, used to state what an error message mentions. -/
def strContains (s sub : String) : Bool :=
  s.data.tails.any (fun t => sub.data.isPrefixOf t)

/-- Field 008 of the test schema (control field, not repeatable). -/
def f008 : Field :=
  { tag := "008", label := "Fixed-Length Data Elements", subfields := [], repeatable := false }

/-- Field 245 of the test schema (not repeatable; subfields a and c not repeatable). -/
def f245 : Field :=
  { tag := "245", label := "Title Statement",
    subfields := [⟨'a', "Title", false⟩, ⟨'c', "Statement of responsibility, etc.", false⟩],
    repeatable := false }

/-- Field 260 of the test schema (repeatable; subfield c repeatable). -/
def f260 : Field :=
  { tag := "260", label := "Publication, Distribution, etc. (Imprint)",
    subfields := [⟨'a', "Place of publication, distribution, etc.", true⟩,
                  ⟨'c', "Date of publication, distribution, etc.", true⟩],
    repeatable := true }

/-- Field 650 of the test schema (repeatable; subfield a not repeatable,
subfield v repeatable). -/
def f650 : Field :=
  { tag := "650", label := "Subject Added Entry-Topical Term",
    subfields := [⟨'a', "Topical term or geographic name entry element", false⟩,
                  ⟨'v', "Form subdivision", true⟩],
    repeatable := true }

/-- A small concrete Avram schema with the repeatability facts the repository
tests exercise (fields 008, 245, 260, 650). -/
def marcTest : MARC :=
  { fields := [f008, f245, f260, f650] }

/-- Space-separated concatenation spelled out recursively: the
specification-side reading of data-field stringification. -/
def spaceSeparated : List String → String
  | [] => ""
  | [v] => v
  | v :: rest => v ++ " " ++ spaceSeparated rest

/-- Splitting a list into consecutive batches of size B, last batch possibly
shorter; B = 0 puts everything into a single batch and the empty list always
gives no batch (specification-side description of the batching pipeline). -/
def chunks {α : Type} (B : Nat) : List α → List (List α)
  | [] => []
  | x :: xs =>
    if B = 0 then [x :: xs]
    else (x :: xs.take (B - 1)) :: chunks B (xs.drop (B - 1))
termination_by l => l.length
decreasing_by simp [List.length_drop]; omega

/-- Effect on the value stored at one key of appending a list of occurrences
to it (growing a fresh list when no list is there yet). -/
def appendOcc : Option PyValue → List String → Option PyValue
  | v, [] => v
  | some (PyValue.list l), occs => some (.list (l ++ occs))
  | _, occs => some (.list occs)

/-- Number of decodable records in the input stream (the None elements are
records pymarc could not parse, which records_iter skips). -/
def decodedCount : List (Option PyRecord) → Nat
  | [] => 0
  | none :: rest => decodedCount rest
  | some _ :: rest => decodedCount rest + 1

/-- All rows projected from the decodable records of the stream, in order
(specification-side flattening of the batching pipeline). -/
def projRows (marc : MARC) (mapping : Mapping) :
    List (Option PyRecord) → Except String (List Row)
  | [] => .ok []
  | none :: rest => projRows marc mapping rest
  | some rec :: rest => do
    let r ← projectRecord marc mapping rec
    let rs ← projRows marc mapping rest
    .ok (r :: rs)

/-- The last rule in the list whose first three characters equal the given
tag (specification-side description of overwrite order). -/
def lastRuleFor (tag : String) : List String → Option String
  | [] => none
  | rule :: rest =>
    match lastRuleFor tag rest with
    | some r => some r
    | none => if tagOfRule rule = tag then some rule else none

/-- Space-prefixed concatenation of the tail elements of a join
(specification-side helper for characterizing a single-space join). -/
def joinSp : List String → String
  | [] => ""
  | v :: rest => " " ++ v ++ joinSp rest

/-! Basic lemmas about the Except monad and the Python dict embedding. -/

@[simp]
theorem exceptBind_ok {ε α β : Type} (a : α) (g : α → Except ε β) :
    (Except.ok a >>= g) = g a := rfl

@[simp]
theorem exceptBind_error {ε α β : Type} (e : ε) (g : α → Except ε β) :
    ((Except.error e : Except ε α) >>= g) = .error e := rfl

theorem dictGet_dictSet {α : Type} (d : List (String × α)) (k k' : String) (v : α) :
    dictGet (dictSet d k v) k' = if k = k' then some v else dictGet d k' := by
  induction d with
  | nil => by_cases h : k = k' <;> simp [dictGet, dictSet, h]
  | cons p rest ih =>
    obtain ⟨k0, v0⟩ := p
    by_cases h0 : k0 = k
    · subst h0
      by_cases h : k0 = k' <;> simp [dictGet, dictSet, h]
    · by_cases h : k0 = k'
      · subst h
        have hk : ¬ k = k0 := fun h' => h0 h'.symm
        simp [dictGet, dictSet, h0, ih, hk]
      · simp [dictGet, dictSet, h0, h, ih]

theorem dictSet_of_not_mem {α : Type} (d : List (String × α)) (k : String) (v : α)
    (h : dictGet d k = none) : dictSet d k v = d ++ [(k, v)] := by
  induction d with
  | nil => simp [dictSet]
  | cons p rest ih =>
    obtain ⟨k0, v0⟩ := p
    by_cases h0 : k0 = k
    · simp [dictGet, h0] at h
    · simp [dictGet, h0] at h
      simp [dictSet, h0, ih h]

/-! Lemmas about column-key strings. -/

theorem fieldKey_inj {t1 t2 : String} (h : "F" ++ t1 = "F" ++ t2) : t1 = t2 := by
  have hd := congrArg String.data h
  simp [String.data_append] at hd
  exact String.ext hd

theorem fieldKey_ne_subKey {t1 t2 : String} (h1 : t1.length = 3) (h2 : t2.length = 3)
    (c : Char) : "F" ++ t1 ≠ "F" ++ t2 ++ String.singleton c := by
  intro h
  have hd := congrArg (fun s => s.data.length) h
  simp [String.data_append, String.singleton] at hd
  have e1 : t1.data.length = 3 := h1
  have e2 : t2.data.length = 3 := h2
  omega

theorem subKey_inj {t1 t2 : String} {c1 c2 : Char} (hl : t1.length = t2.length)
    (h : "F" ++ t1 ++ String.singleton c1 = "F" ++ t2 ++ String.singleton c2) :
    t1 = t2 ∧ c1 = c2 := by
  have hd := congrArg String.data h
  simp [String.data_append, String.singleton] at hd
  have hlen : t1.data.length = t2.data.length := hl
  obtain ⟨he, hc⟩ := List.append_inj hd hlen
  exact ⟨String.ext he, by simpa using hc⟩

theorem subKey_code_inj {t : String} {c1 c2 : Char}
    (h : "F" ++ t ++ String.singleton c1 = "F" ++ t ++ String.singleton c2) :
    c1 = c2 :=
  (subKey_inj rfl h).2

/-! Lemmas about schema lookups. -/

theorem get_field_tag {marc : MARC} {t : String} {f : Field}
    (h : marc.get_field t = some f) : f.tag = t ∧ f ∈ marc.fields := by
  unfold MARC.get_field at h
  refine ⟨?_, List.mem_of_find?_eq_some h⟩
  have := List.find?_some h
  simpa using this

theorem tag_len3 {marc : MARC} (h3 : TagsLen3 marc) {t : String} {f : Field}
    (h : marc.get_field t = some f) : t.length = 3 := by
  obtain ⟨htag, hmem⟩ := get_field_tag h
  rw [← htag]
  exact h3 f hmem

theorem get_fieldE_ok_iff {marc : MARC} {t : String} {f : Field} :
    marc.get_fieldE t = .ok f ↔ marc.get_field t = some f := by
  unfold MARC.get_fieldE
  cases h : marc.get_field t <;> simp

theorem get_subfieldE_ok_iff {marc : MARC} {t : String} {c : Char} {sd : Subfield} :
    marc.get_subfieldE t c = .ok sd ↔ marc.get_subfield t c = some sd := by
  unfold MARC.get_subfield
  cases h : marc.get_subfieldE t c <;> simp [Except.toOption]

theorem get_subfield_field {marc : MARC} {t : String} {c : Char} {sd : Subfield}
    (h : marc.get_subfield t c = some sd) :
    ∃ f, marc.get_field t = some f ∧ f.get_subfield c = some sd := by
  rw [← get_subfieldE_ok_iff] at h
  unfold MARC.get_subfieldE at h
  cases hf : marc.get_fieldE t with
  | error e => rw [hf] at h; simp at h
  | ok f =>
    rw [hf] at h
    refine ⟨f, get_fieldE_ok_iff.mp hf, ?_⟩
    simp at h
    unfold Field.get_subfieldE at h
    cases hs : f.get_subfield c <;> rw [hs] at h <;> simp_all

theorem get_subfield_tag_len3 {marc : MARC} (h3 : TagsLen3 marc) {t : String}
    {c : Char} {sd : Subfield} (h : marc.get_subfield t c = some sd) :
    t.length = 3 := by
  obtain ⟨f, hf, _⟩ := get_subfield_field h
  exact tag_len3 h3 hf

theorem get_subfield_isSome_iff {marc : MARC} {t : String} {c : Char} :
    (marc.get_subfield t c).isSome ↔ ∃ sd, marc.get_subfieldE t c = .ok sd := by
  constructor
  · intro h
    obtain ⟨sd, hsd⟩ := Option.isSome_iff_exists.mp h
    exact ⟨sd, get_subfieldE_ok_iff.mpr hsd⟩
  · rintro ⟨sd, hsd⟩
    rw [get_subfieldE_ok_iff] at hsd
    simp [hsd]

/-! Lemmas about Except bind and appendOcc. -/

theorem bind_ok_iff {ε α β : Type} {x : Except ε α} {g : α → Except ε β} {b : β} :
    (x >>= g) = .ok b ↔ ∃ a, x = .ok a ∧ g a = .ok b := by
  cases x <;> simp

theorem appendOcc_nil (v : Option PyValue) : appendOcc v [] = v := by
  rcases v with _ | v
  · rfl
  · cases v <;> rfl

theorem appendOcc_cons_none (a : String) (occs : List String) :
    appendOcc none (a :: occs) = some (.list (a :: occs)) := rfl

theorem appendOcc_cons_str (s a : String) (occs : List String) :
    appendOcc (some (.str s)) (a :: occs) = some (.list (a :: occs)) := rfl

theorem appendOcc_cons_list (l : List String) (a : String) (occs : List String) :
    appendOcc (some (.list l)) (a :: occs) = some (.list (l ++ a :: occs)) := rfl

theorem appendOcc_append (v : Option PyValue) (o1 o2 : List String) :
    appendOcc (appendOcc v o1) o2 = appendOcc v (o1 ++ o2) := by
  cases o1 with
  | nil =>
    rw [appendOcc_nil]
    simp
  | cons a o1 =>
    cases o2 with
    | nil =>
      rw [appendOcc_nil]
      simp
    | cons b o2 =>
      rcases v with _ | v
      · simp [appendOcc_cons_none, appendOcc_cons_list]
      · cases v <;>
          simp [appendOcc_cons_none, appendOcc_cons_list, appendOcc_cons_str]

/-! The row classification invariant and how each projection step preserves it. -/

theorem goodRow_nil (marc : MARC) (mapping : Mapping) : GoodRow marc mapping [] := by
  intro key value h
  simp [dictGet] at h

theorem goodRow_set {marc : MARC} {mapping : Mapping} {r : Row}
    (hgood : GoodRow marc mapping r) {key : String} {value : PyValue}
    (hok :
      (∃ tag f, dictGet mapping tag = some none ∧ marc.get_field tag = some f ∧
        key = "F" ++ tag ∧ value.isList = f.repeatable) ∨
      (∃ tag codes c sd, dictGet mapping tag = some (some codes) ∧ c ∈ codes ∧
        marc.get_subfield tag c = some sd ∧ key = "F" ++ tag ++ String.singleton c ∧
        value.isList = sd.repeatable)) :
    GoodRow marc mapping (dictSet r key value) := by
  intro k v hkv
  rw [dictGet_dictSet] at hkv
  by_cases hk : key = k
  · subst hk
    rw [if_pos rfl] at hkv
    cases hkv
    exact hok
  · rw [if_neg hk] at hkv
    exact hgood k v hkv

theorem goodRow_field_val {marc : MARC} {mapping : Mapping} (h3 : TagsLen3 marc)
    {r : Row} (hgood : GoodRow marc mapping r) {t : String} {f : Field} {v : PyValue}
    (hf : marc.get_field t = some f) (hmap : dictGet mapping t = some none)
    (hv : dictGet r ("F" ++ t) = some v) : v.isList = f.repeatable := by
  rcases hgood _ _ hv with ⟨t', f', hm', hf', hkey, hcls⟩ |
    ⟨t', codes', c', sd', hm', hc', hsd', hkey, hcls⟩
  · obtain rfl : t = t' := fieldKey_inj hkey
    rw [hf] at hf'
    cases hf'
    exact hcls
  · exact absurd hkey
      (fieldKey_ne_subKey (tag_len3 h3 hf) (get_subfield_tag_len3 h3 hsd') c')

theorem goodRow_sub_val {marc : MARC} {mapping : Mapping} (h3 : TagsLen3 marc)
    {r : Row} (hgood : GoodRow marc mapping r) {t : String} {codes : List Char}
    {c : Char} {sd : Subfield} {v : PyValue}
    (hmap : dictGet mapping t = some (some codes)) (hsd : marc.get_subfield t c = some sd)
    (hv : dictGet r ("F" ++ t ++ String.singleton c) = some v) :
    v.isList = sd.repeatable := by
  rcases hgood _ _ hv with ⟨t', f', hm', hf', hkey, hcls⟩ |
    ⟨t', codes', c', sd', hm', hc', hsd', hkey, hcls⟩
  · exact absurd hkey.symm
      (fieldKey_ne_subKey (tag_len3 h3 hf') (get_subfield_tag_len3 h3 hsd) c)
  · have hlen : t.length = t'.length := by
      rw [get_subfield_tag_len3 h3 hsd, get_subfield_tag_len3 h3 hsd']
    obtain ⟨rfl, rfl⟩ := subKey_inj hlen hkey
    rw [hsd] at hsd'
    cases hsd'
    exact hcls

theorem appendOcc_step (v : Option PyValue) (l : List String) (a : String)
    (occs : List String) (hv : (v = none ∧ l = []) ∨ v = some (.list l)) :
    appendOcc (some (.list (l ++ [a]))) occs = appendOcc v (a :: occs) := by
  rcases hv with ⟨rfl, rfl⟩ | rfl
  · cases occs <;> simp [appendOcc_cons_none, appendOcc_cons_list, appendOcc_nil]
  · cases occs <;> simp [appendOcc_cons_list, appendOcc_nil]

/-! Success, invariant preservation and value tracking for each projection step. -/

theorem projectWholeField_ok {marc : MARC} {mapping : Mapping} (h3 : TagsLen3 marc)
    {r : Row} {field : PyField} {f : Field}
    (hf : marc.get_field field.tag = some f)
    (hmap : dictGet mapping field.tag = some none)
    (hgood : GoodRow marc mapping r) :
    ∃ r', projectWholeField marc r field = .ok r' ∧ GoodRow marc mapping r' ∧
      ∀ k, k ≠ "F" ++ field.tag → dictGet r' k = dictGet r k := by
  have hfE : marc.get_fieldE field.tag = .ok f := get_fieldE_ok_iff.mpr hf
  cases hrep : f.repeatable with
  | true =>
    cases hv : dictGet r ("F" ++ field.tag) with
    | none =>
      refine ⟨dictSet r ("F" ++ field.tag) (.list [_stringify_field field]), ?_, ?_, ?_⟩
      · simp [projectWholeField, hfE, hrep, hv]
      · exact goodRow_set hgood
          (Or.inl ⟨field.tag, f, hmap, hf, rfl, by simp [PyValue.isList, hrep]⟩)
      · intro k hk
        rw [dictGet_dictSet, if_neg fun h => hk h.symm]
    | some v =>
      have hcls := goodRow_field_val h3 hgood hf hmap hv
      cases v with
      | str s => rw [hrep] at hcls; simp [PyValue.isList] at hcls
      | list l =>
        refine ⟨dictSet r ("F" ++ field.tag) (.list (l ++ [_stringify_field field])),
          ?_, ?_, ?_⟩
        · simp [projectWholeField, hfE, hrep, hv]
        · exact goodRow_set hgood
            (Or.inl ⟨field.tag, f, hmap, hf, rfl, by simp [PyValue.isList, hrep]⟩)
        · intro k hk
          rw [dictGet_dictSet, if_neg fun h => hk h.symm]
  | false =>
    refine ⟨dictSet r ("F" ++ field.tag) (.str (_stringify_field field)), ?_, ?_, ?_⟩
    · simp [projectWholeField, hfE, hrep]
    · exact goodRow_set hgood
        (Or.inl ⟨field.tag, f, hmap, hf, rfl, by simp [PyValue.isList, hrep]⟩)
    · intro k hk
      rw [dictGet_dictSet, if_neg fun h => hk h.symm]

theorem projectSubfields_ok {marc : MARC} {mapping : Mapping} (h3 : TagsLen3 marc)
    {tag : String} {codes : List Char}
    (hmap : dictGet mapping tag = some (some codes))
    (hcodes : ∀ c ∈ codes, (marc.get_subfield tag c).isSome) :
    ∀ (sfs : List PySubfield) (r : Row), GoodRow marc mapping r →
    ∃ r', projectSubfields marc tag codes sfs r = .ok r' ∧ GoodRow marc mapping r' ∧
      ∀ k, (∀ c : Char, k ≠ "F" ++ tag ++ String.singleton c) →
        dictGet r' k = dictGet r k := by
  intro sfs
  induction sfs with
  | nil => exact fun r hgood => ⟨r, rfl, hgood, fun k _ => rfl⟩
  | cons sf rest ih =>
    intro r hgood
    by_cases hmem : sf.code ∈ codes
    · obtain ⟨sd, hsdE⟩ := get_subfield_isSome_iff.mp (hcodes sf.code hmem)
      have hsd : marc.get_subfield tag sf.code = some sd := get_subfieldE_ok_iff.mp hsdE
      cases hrep : sd.repeatable with
      | true =>
        cases hv : dictGet r ("F" ++ tag ++ String.singleton sf.code) with
        | none =>
          obtain ⟨r', hr', hgood', hpres⟩ :=
            ih (dictSet r ("F" ++ tag ++ String.singleton sf.code) (.list [sf.value]))
              (goodRow_set hgood (Or.inr ⟨tag, codes, sf.code, sd, hmap, hmem, hsd, rfl,
                by simp [PyValue.isList, hrep]⟩))
          refine ⟨r', ?_, hgood', ?_⟩
          · simpa [projectSubfields, hmem, hsdE, hrep, hv] using hr'
          · intro k hk
            rw [hpres k hk, dictGet_dictSet, if_neg fun h => (hk sf.code) h.symm]
        | some v =>
          have hcls := goodRow_sub_val h3 hgood hmap hsd hv
          cases v with
          | str s => rw [hrep] at hcls; simp [PyValue.isList] at hcls
          | list l =>
            obtain ⟨r', hr', hgood', hpres⟩ :=
              ih (dictSet r ("F" ++ tag ++ String.singleton sf.code)
                    (.list (l ++ [sf.value])))
                (goodRow_set hgood (Or.inr ⟨tag, codes, sf.code, sd, hmap, hmem, hsd, rfl,
                  by simp [PyValue.isList, hrep]⟩))
            refine ⟨r', ?_, hgood', ?_⟩
            · simpa [projectSubfields, hmem, hsdE, hrep, hv] using hr'
            · intro k hk
              rw [hpres k hk, dictGet_dictSet, if_neg fun h => (hk sf.code) h.symm]
      | false =>
        obtain ⟨r', hr', hgood', hpres⟩ :=
          ih (dictSet r ("F" ++ tag ++ String.singleton sf.code) (.str sf.value))
            (goodRow_set hgood (Or.inr ⟨tag, codes, sf.code, sd, hmap, hmem, hsd, rfl,
              by simp [PyValue.isList, hrep]⟩))
        refine ⟨r', ?_, hgood', ?_⟩
        · simpa [projectSubfields, hmem, hsdE, hrep] using hr'
        · intro k hk
          rw [hpres k hk, dictGet_dictSet, if_neg fun h => (hk sf.code) h.symm]
    · obtain ⟨r', hr', hgood', hpres⟩ := ih r hgood
      exact ⟨r', by simpa [projectSubfields, hmem] using hr', hgood', hpres⟩

theorem subOccs_cons {c : Char} {sf : PySubfield} {rest : List PySubfield} :
    subOccs c (sf :: rest) =
      if sf.code = c then sf.value :: subOccs c rest else subOccs c rest := rfl

theorem projectSubfields_track {marc : MARC} {tag : String} {codes : List Char}
    {c : Char} {sd : Subfield}
    (hc : c ∈ codes) (hsd : marc.get_subfield tag c = some sd)
    (hrep : sd.repeatable = true) :
    ∀ (sfs : List PySubfield) (r r' : Row),
      projectSubfields marc tag codes sfs r = .ok r' →
      dictGet r' ("F" ++ tag ++ String.singleton c) =
        appendOcc (dictGet r ("F" ++ tag ++ String.singleton c)) (subOccs c sfs) := by
  intro sfs
  induction sfs with
  | nil =>
    intro r r' h
    injection h with h
    subst h
    simp [subOccs, appendOcc_nil]
  | cons sf rest ih =>
    intro r r' h
    by_cases hmem : sf.code ∈ codes
    · rw [show projectSubfields marc tag codes (sf :: rest) r =
          (if sf.code ∈ codes then _ else projectSubfields marc tag codes rest r)
          from rfl, if_pos hmem] at h
      obtain ⟨sd'', hsdE'', h⟩ := bind_ok_iff.mp h
      by_cases hcc : sf.code = c
      · subst hcc
        rw [get_subfieldE_ok_iff.mpr hsd] at hsdE''
        injection hsdE'' with e
        subst e
        rw [hrep] at h
        simp only [if_true] at h
        cases hv : dictGet r ("F" ++ tag ++ String.singleton sf.code) with
        | none =>
          rw [hv] at h
          simp only [Option.getD_none, List.nil_append] at h
          have hrec := ih _ _ h
          rw [dictGet_dictSet, if_pos rfl] at hrec
          rw [hrec, subOccs_cons, if_pos rfl]
          exact appendOcc_step none [] sf.value (subOccs sf.code rest) (Or.inl ⟨rfl, rfl⟩)
        | some v =>
          rw [hv] at h
          simp only [Option.getD_some] at h
          cases v with
          | str s => simp at h
          | list l =>
            have hrec := ih _ _ h
            rw [dictGet_dictSet, if_pos rfl] at hrec
            rw [hrec, subOccs_cons, if_pos rfl]
            exact appendOcc_step (some (.list l)) l sf.value (subOccs sf.code rest)
              (Or.inr rfl)
      · have hkne : ("F" ++ tag ++ String.singleton sf.code) ≠
            ("F" ++ tag ++ String.singleton c) := fun e => hcc (subKey_code_inj e)
        have hstep : ∃ value, projectSubfields marc tag codes rest
            (dictSet r ("F" ++ tag ++ String.singleton sf.code) value) = .ok r' := by
          by_cases hr2 : sd''.repeatable = true
          · rw [if_pos hr2] at h
            cases hgd : (dictGet r ("F" ++ tag ++ String.singleton sf.code)).getD
                (.list []) with
            | str s => rw [hgd] at h; simp at h
            | list lst => rw [hgd] at h; exact ⟨_, h⟩
          · rw [if_neg hr2] at h
            exact ⟨_, h⟩
        obtain ⟨value, hrc⟩ := hstep
        have hrec := ih _ _ hrc
        rw [dictGet_dictSet, if_neg hkne] at hrec
        rw [hrec, subOccs_cons, if_neg hcc]
    · have hcc : sf.code ≠ c := fun e => hmem (e ▸ hc)
      rw [show projectSubfields marc tag codes (sf :: rest) r =
          (if sf.code ∈ codes then _ else projectSubfields marc tag codes rest r)
          from rfl, if_neg hmem] at h
      rw [ih _ _ h, subOccs_cons, if_neg hcc]

theorem fieldOccs_cons {tag : String} {c : Char} {f0 : PyField} {fs : List PyField} :
    fieldOccs tag c (f0 :: fs) =
      if f0.tag = tag then subOccs c f0.subfields ++ fieldOccs tag c fs
      else fieldOccs tag c fs := rfl

theorem checkSubfields_ok {marc : MARC} {tag : String} :
    ∀ {cs : List Char}, checkSubfields marc tag cs = .ok () →
      ∀ c ∈ cs, (marc.get_subfield tag c).isSome := by
  intro cs
  induction cs with
  | nil => intro _ c hc; simp at hc
  | cons c0 cs ih =>
    intro h c hc
    obtain ⟨sd, hsd, h⟩ := bind_ok_iff.mp h
    rcases List.mem_cons.mp hc with rfl | hc'
    · exact get_subfield_isSome_iff.mpr ⟨sd, hsd⟩
    · exact ih h c hc'

theorem mapping_go_wf {marc : MARC} :
    ∀ {rules : List String} {m m' : Mapping}, MappingWF marc m →
      _mapping_go marc rules m = .ok m' → MappingWF marc m' := by
  intro rules
  induction rules with
  | nil =>
    intro m m' hwf h
    injection h with h
    subst h
    exact hwf
  | cons rule rest ih =>
    intro m m' hwf h
    obtain ⟨f, hf, h⟩ := bind_ok_iff.mp h
    obtain ⟨u, hu, h⟩ := bind_ok_iff.mp h
    refine ih ?_ h
    intro tag v hv
    rw [dictGet_dictSet] at hv
    by_cases ht : tagOfRule rule = tag
    · subst ht
      rw [if_pos rfl] at hv
      injection hv with hv
      subst hv
      constructor
      · rw [get_fieldE_ok_iff.mp hf]; rfl
      · intro codes hcodes c hc
        unfold valueOfRule at hcodes
        by_cases he : (subfieldsOfRule rule).isEmpty
        · rw [if_pos he] at hcodes; cases hcodes
        · rw [if_neg he] at hcodes
          injection hcodes with e
          subst e
          cases u
          exact checkSubfields_ok hu c hc
    · rw [if_neg ht] at hv
      exact hwf tag v hv

theorem _mapping_wf {marc : MARC} {rules : List String} {mapping : Mapping}
    (h : _mapping marc rules = .ok mapping) : MappingWF marc mapping := by
  unfold _mapping at h
  refine mapping_go_wf ?_ h
  intro tag v hv
  simp [dictGet] at hv

theorem mapped_tag_len3 {marc : MARC} {mapping : Mapping} (h3 : TagsLen3 marc)
    (hwf : MappingWF marc mapping) {t : String} {v : Option (List Char)}
    (h : dictGet mapping t = some v) : t.length = 3 := by
  obtain ⟨f, hf⟩ := Option.isSome_iff_exists.mp (hwf t v h).1
  exact tag_len3 h3 hf

/-! The projection loop over the fields of a record: success, invariant
preservation, and tracking of a repeatable subfield column. -/

theorem projectFields_ok {marc : MARC} {mapping : Mapping} (h3 : TagsLen3 marc)
    (hwf : MappingWF marc mapping) :
    ∀ (fs : List PyField) (r : Row), GoodRow marc mapping r →
    ∃ row, projectFields marc mapping fs r = .ok row ∧ GoodRow marc mapping row := by
  intro fs
  induction fs with
  | nil => exact fun r hgood => ⟨r, rfl, hgood⟩
  | cons f0 fs ih =>
    intro r hgood
    cases hm : dictGet mapping f0.tag with
    | none =>
      obtain ⟨row, hrow, hgood'⟩ := ih r hgood
      refine ⟨row, ?_, hgood'⟩
      simp only [projectFields, projectField, hm, exceptBind_ok]
      exact hrow
    | some sub =>
      cases sub with
      | none =>
        obtain ⟨f, hf⟩ := Option.isSome_iff_exists.mp (hwf f0.tag none hm).1
        obtain ⟨r1, hr1, hgood1, _⟩ := projectWholeField_ok h3 hf hm hgood
        obtain ⟨row, hrow, hgood'⟩ := ih r1 hgood1
        refine ⟨row, ?_, hgood'⟩
        simp only [projectFields, projectField, hm, hr1, exceptBind_ok]
        exact hrow
      | some codes =>
        have hcodes : ∀ c ∈ codes, (marc.get_subfield f0.tag c).isSome :=
          fun c hc => (hwf f0.tag (some codes) hm).2 codes rfl c hc
        obtain ⟨r1, hr1, hgood1, _⟩ :=
          projectSubfields_ok h3 hm hcodes f0.subfields r hgood
        obtain ⟨row, hrow, hgood'⟩ := ih r1 hgood1
        refine ⟨row, ?_, hgood'⟩
        simp only [projectFields, projectField, hm, hr1, exceptBind_ok]
        exact hrow

theorem projectFields_track {marc : MARC} {mapping : Mapping} (h3 : TagsLen3 marc)
    (hwf : MappingWF marc mapping) {tag : String} {codes : List Char} {c : Char}
    {sd : Subfield} (hmap : dictGet mapping tag = some (some codes)) (hc : c ∈ codes)
    (hsd : marc.get_subfield tag c = some sd) (hrep : sd.repeatable = true) :
    ∀ (fs : List PyField) (r row : Row), GoodRow marc mapping r →
      projectFields marc mapping fs r = .ok row →
      dictGet row ("F" ++ tag ++ String.singleton c) =
        appendOcc (dictGet r ("F" ++ tag ++ String.singleton c)) (fieldOccs tag c fs) := by
  intro fs
  induction fs with
  | nil =>
    intro r row hgood h
    injection h with h
    subst h
    simp [fieldOccs, appendOcc_nil]
  | cons f0 fs ih =>
    intro r row hgood h
    obtain ⟨r1, hr1, h⟩ := bind_ok_iff.mp h
    by_cases htag : f0.tag = tag
    · have hm0 : dictGet mapping f0.tag = some (some codes) := by rw [htag]; exact hmap
      have hcodes : ∀ c' ∈ codes, (marc.get_subfield f0.tag c').isSome :=
        fun c' hc' => (hwf f0.tag (some codes) hm0).2 codes rfl c' hc'
      simp only [projectField, hm0] at hr1
      have hr1t : projectSubfields marc tag codes f0.subfields r = .ok r1 := by
        rw [← htag]
        exact hr1
      have hgood1 : GoodRow marc mapping r1 := by
        obtain ⟨r1', hr1', hg, _⟩ :=
          projectSubfields_ok h3 hm0 hcodes f0.subfields r hgood
        rw [hr1] at hr1'
        injection hr1' with e
        rw [← e] at hg
        exact hg
      have htr : dictGet r1 ("F" ++ tag ++ String.singleton c) =
          appendOcc (dictGet r ("F" ++ tag ++ String.singleton c))
            (subOccs c f0.subfields) :=
        projectSubfields_track hc hsd hrep f0.subfields r r1 hr1t
      rw [ih _ _ hgood1 h, htr, appendOcc_append, fieldOccs_cons, if_pos htag]
    · have htaglen : tag.length = 3 := get_subfield_tag_len3 h3 hsd
      have hpres : dictGet r1 ("F" ++ tag ++ String.singleton c) =
            dictGet r ("F" ++ tag ++ String.singleton c) ∧
          GoodRow marc mapping r1 := by
        cases hm : dictGet mapping f0.tag with
        | none =>
          simp only [projectField, hm] at hr1
          injection hr1 with e
          subst e
          exact ⟨rfl, hgood⟩
        | some sub =>
          cases sub with
          | none =>
            obtain ⟨f, hf⟩ := Option.isSome_iff_exists.mp (hwf f0.tag none hm).1
            obtain ⟨r1', hr1', hgood1, hp⟩ := projectWholeField_ok h3 hf hm hgood
            simp only [projectField, hm] at hr1
            rw [hr1'] at hr1
            injection hr1 with e
            subst e
            refine ⟨hp _ ?_, hgood1⟩
            exact (fieldKey_ne_subKey (tag_len3 h3 hf) htaglen c).symm
          | some codes' =>
            have hcodes' : ∀ c' ∈ codes', (marc.get_subfield f0.tag c').isSome :=
              fun c' hc' => (hwf f0.tag (some codes') hm).2 codes' rfl c' hc'
            obtain ⟨r1', hr1', hgood1, hp⟩ :=
              projectSubfields_ok h3 hm hcodes' f0.subfields r hgood
            simp only [projectField, hm] at hr1
            rw [hr1'] at hr1
            injection hr1 with e
            subst e
            refine ⟨hp _ ?_, hgood1⟩
            intro c'
            intro he
            have hlen : tag.length = f0.tag.length := by
              rw [htaglen, mapped_tag_len3 h3 hwf hm]
            exact htag ((subKey_inj hlen he).1.symm)
      rw [ih _ _ hpres.2 h, hpres.1, fieldOccs_cons, if_neg htag]

/-! Lemmas about the rule compiler. -/

theorem dictGet_append {α : Type} (d1 d2 : List (String × α)) (k : String) :
    dictGet (d1 ++ d2) k =
      match dictGet d1 k with
      | some v => some v
      | none => dictGet d2 k := by
  induction d1 with
  | nil => simp [dictGet]
  | cons p rest ih =>
    obtain ⟨k0, v0⟩ := p
    by_cases h : k0 = k <;> simp [dictGet, h, ih]

theorem mapping_go_default {marc : MARC} (h3 : TagsLen3 marc) :
    ∀ (tags : List String) (m : Mapping),
      (∀ t ∈ tags, ∃ f ∈ marc.fields, f.tag = t) →
      tags.Nodup →
      (∀ t ∈ tags, dictGet m t = none) →
      _mapping_go marc tags m = .ok (m ++ tags.map (fun t => (t, none))) := by
  intro tags
  induction tags with
  | nil => intro m _ _ _; simp [_mapping_go]
  | cons t ts ih =>
    intro m hmem hnd hfresh
    obtain ⟨f, hfmem, hft⟩ := hmem t (List.mem_cons_self t ts)
    have hfind : ∃ f', marc.get_field t = some f' := by
      have : (marc.get_field t).isSome := by
        unfold MARC.get_field
        rw [List.find?_isSome]
        exact ⟨f, hfmem, by simp [hft]⟩
      exact Option.isSome_iff_exists.mp this
    obtain ⟨f', hf'⟩ := hfind
    have hlen : t.data.length = 3 := tag_len3 h3 hf'
    have htag : tagOfRule t = t := by
      unfold tagOfRule
      rw [List.take_of_length_le (le_of_eq hlen)]
    have hsub : subfieldsOfRule t = [] := by
      unfold subfieldsOfRule
      rw [List.drop_of_length_le (le_of_eq hlen)]
      rfl
    have hval : valueOfRule t = none := by
      unfold valueOfRule
      rw [hsub]
      rfl
    have hset : dictSet m t none = m ++ [(t, none)] :=
      dictSet_of_not_mem m t none (hfresh t (List.mem_cons_self t ts))
    have hrec : _mapping_go marc ts (m ++ [(t, none)]) =
        .ok ((m ++ [(t, none)]) ++ ts.map (fun u => (u, none))) := by
      refine ih (m ++ [(t, none)]) (fun u hu => hmem u (List.mem_cons_of_mem t hu))
        (List.Nodup.of_cons hnd) ?_
      intro u hu
      rw [dictGet_append]
      rw [hfresh u (List.mem_cons_of_mem t hu)]
      have hne : t ≠ u := fun e => (List.nodup_cons.mp hnd).1 (e ▸ hu)
      simp [dictGet, hne]
    show (marc.get_fieldE (tagOfRule t) >>= fun _ =>
      checkSubfields marc (tagOfRule t) (subfieldsOfRule t) >>= fun _ =>
      _mapping_go marc ts (dictSet m (tagOfRule t) (valueOfRule t))) = _
    rw [htag, hsub, hval, get_fieldE_ok_iff.mpr hf', exceptBind_ok]
    rw [show checkSubfields marc t [] = .ok () from rfl, exceptBind_ok]
    rw [hset, hrec]
    simp

theorem mapping_go_lookup {marc : MARC} :
    ∀ {rules : List String} {m m' : Mapping},
      _mapping_go marc rules m = .ok m' → ∀ tag,
      dictGet m' tag =
        match lastRuleFor tag rules with
        | some ru => some (valueOfRule ru)
        | none => dictGet m tag := by
  intro rules
  induction rules with
  | nil =>
    intro m m' h tag
    injection h with h
    subst h
    rfl
  | cons rule rest ih =>
    intro m m' h tag
    obtain ⟨f, hf, h⟩ := bind_ok_iff.mp h
    obtain ⟨u, hu, h⟩ := bind_ok_iff.mp h
    have IH := ih h tag
    show dictGet m' tag =
      (match (match lastRuleFor tag rest with
        | some r => some r
        | none => if tagOfRule rule = tag then some rule else none) with
      | some ru => some (valueOfRule ru)
      | none => dictGet m tag)
    cases hlast : lastRuleFor tag rest with
    | some ru' =>
      rw [hlast] at IH
      exact IH
    | none =>
      rw [hlast] at IH
      rw [IH, dictGet_dictSet]
      by_cases ht : tagOfRule rule = tag
      · rw [if_pos ht, ht, if_pos rfl]
      · rw [if_neg ht, if_neg ht]

/-- Claim C9: the row invariant holds throughout projection — a stored value
is a Python list exactly when the schema definition governing its key (the
field for F<tag>, the subfield for F<tag><code>) is repeatable — and
consequently the two `Repeatable field contains a string` assertions in
records_iter never fire: projecting any decoded record under a compiled
mapping always succeeds, for a schema whose tags are 3 characters long. -/
theorem projection_invariant_asserts_never_fire {marc : MARC} {rules : List String}
    {mapping : Mapping} (h3 : TagsLen3 marc)
    (hcomp : _mapping marc rules = .ok mapping) (record : PyRecord) :
    ∃ row, projectRecord marc mapping record = .ok row ∧ GoodRow marc mapping row :=
  projectFields_ok h3 (_mapping_wf hcomp) record.fields [] (goodRow_nil marc mapping)

/-- Witness for C9 at a concrete schema, mapping and record. -/
theorem projection_invariant_asserts_never_fire_witness :
    ∃ row, projectRecord marcTest [("260", some ['c'])]
        ⟨[PyField.dataField "260" [⟨'c', "c2000."⟩]]⟩ = .ok row ∧
      GoodRow marcTest [("260", some ['c'])] row :=
  projection_invariant_asserts_never_fire (by unfold TagsLen3; decide)
    (show _mapping marcTest ["260c"] = .ok [("260", some ['c'])] from rfl)
    ⟨[PyField.dataField "260" [⟨'c', "c2000."⟩]]⟩

/-- Claim C1: for every decoded record and compiled mapping that maps a tag
to a requested subfield-code set, if a repeatable subfield with a requested
code occurs N ≥ 1 times across the record's fields, the produced row holds
at key F<tag><code> the list of exactly those N values, in source
(record-then-field) order — occsSub spells that order out. -/
theorem repeatable_subfield_occurrences {marc : MARC} {rules : List String}
    {mapping : Mapping} {record : PyRecord} {tag : String} {codes : List Char}
    {c : Char} {sd : Subfield} {N : Nat} (h3 : TagsLen3 marc)
    (hcomp : _mapping marc rules = .ok mapping)
    (hmap : dictGet mapping tag = some (some codes)) (hc : c ∈ codes)
    (hsd : marc.get_subfield tag c = some sd) (hrep : sd.repeatable = true)
    (hN : (occsSub record tag c).length = N) (hpos : 1 ≤ N) :
    ∃ row, projectRecord marc mapping record = .ok row ∧
      dictGet row ("F" ++ tag ++ String.singleton c) =
        some (.list (occsSub record tag c)) ∧
      (occsSub record tag c).length = N := by
  have hwf := _mapping_wf hcomp
  obtain ⟨row, hrow, hgood⟩ :=
    projectFields_ok h3 hwf record.fields [] (goodRow_nil marc mapping)
  refine ⟨row, hrow, ?_, hN⟩
  have htr := projectFields_track h3 hwf hmap hc hsd hrep record.fields [] row
    (goodRow_nil marc mapping) hrow
  rw [htr]
  simp only [occsSub] at hN ⊢
  cases hocc : fieldOccs tag c record.fields with
  | nil =>
    exfalso
    rw [hocc] at hN
    simp at hN
    omega
  | cons a os =>
    simp only [dictGet]
    exact appendOcc_cons_none a os

/-- Witness for C1 at a concrete record in which repeatable subfield 260$c
occurs twice across two 260 fields. -/
theorem repeatable_subfield_occurrences_witness :
    ∃ row, projectRecord marcTest [("260", some ['c'])]
        ⟨[PyField.dataField "260" [⟨'c', "v1"⟩],
          PyField.dataField "260" [⟨'a', "x"⟩, ⟨'c', "v2"⟩]]⟩ = .ok row ∧
      dictGet row ("F" ++ "260" ++ String.singleton 'c') =
        some (.list (occsSub ⟨[PyField.dataField "260" [⟨'c', "v1"⟩],
          PyField.dataField "260" [⟨'a', "x"⟩, ⟨'c', "v2"⟩]]⟩ "260" 'c')) ∧
      (occsSub ⟨[PyField.dataField "260" [⟨'c', "v1"⟩],
        PyField.dataField "260" [⟨'a', "x"⟩, ⟨'c', "v2"⟩]]⟩ "260" 'c').length = 2 :=
  repeatable_subfield_occurrences (by unfold TagsLen3; decide)
    (show _mapping marcTest ["260c"] = .ok [("260", some ['c'])] from rfl)
    (show dictGet [("260", some ['c'])] "260" = some (some ['c']) from rfl)
    (by decide)
    (show marcTest.get_subfield "260" 'c' =
      some ⟨'c', "Date of publication, distribution, etc.", true⟩ from rfl)
    rfl rfl (by decide)

/-- Claim C2 as stated is refuted on the code: a single occurrence of a
repeatable subfield already yields a one-element list, while the claim says
a list appears only when multiple occurrences existed. Subfield 260$c is
repeatable; a record with exactly one occurrence produces the list
["c2000."] (the repository test asserts the same shape:
df.iloc[0]["F260c"] == ["c2000."]). -/
theorem single_occurrence_yields_list :
    _mapping marcTest ["260c"] = .ok [("260", some ['c'])] ∧
    (occsSub ⟨[PyField.dataField "260" [⟨'c', "c2000."⟩]]⟩ "260" 'c').length = 1 ∧
    projectRecord marcTest [("260", some ['c'])]
        ⟨[PyField.dataField "260" [⟨'c', "c2000."⟩]]⟩ =
      .ok [("F260c", PyValue.list ["c2000."])] ∧
    (PyValue.list ["c2000."]).isList = true :=
  ⟨rfl, rfl, rfl, rfl⟩

/-- Claim C2 amended: in every produced row the value at a key is a single
string or an ordered list of strings, and it is a list exactly when the
schema definition underlying that key is repeatable — regardless of how
many occurrences the source record held. -/
theorem row_value_list_iff_repeatable {marc : MARC} {rules : List String}
    {mapping : Mapping} {record : PyRecord} {row : Row} {key : String}
    {value : PyValue} (h3 : TagsLen3 marc)
    (hcomp : _mapping marc rules = .ok mapping)
    (hrow : projectRecord marc mapping record = .ok row)
    (hval : dictGet row key = some value) :
    (∃ tag f, dictGet mapping tag = some none ∧ marc.get_field tag = some f ∧
      key = "F" ++ tag ∧ value.isList = f.repeatable) ∨
    (∃ tag codes c sd, dictGet mapping tag = some (some codes) ∧ c ∈ codes ∧
      marc.get_subfield tag c = some sd ∧ key = "F" ++ tag ++ String.singleton c ∧
      value.isList = sd.repeatable) := by
  obtain ⟨row', hrow', hgood⟩ :=
    projectFields_ok h3 (_mapping_wf hcomp) record.fields [] (goodRow_nil marc mapping)
  have hrow2 : projectFields marc mapping record.fields [] = .ok row := hrow
  rw [hrow2] at hrow'
  injection hrow' with e
  rw [← e] at hgood
  exact hgood key value hval

/-- Witness for the amended C2 at a concrete row: the one-element list at
F260c is classified by the repeatable flag of subfield 260$c. -/
theorem row_value_list_iff_repeatable_witness :
    (∃ tag f, dictGet [("260", some ['c'])] tag = some none ∧
      marcTest.get_field tag = some f ∧ "F260c" = "F" ++ tag ∧
      (PyValue.list ["c2000."]).isList = f.repeatable) ∨
    (∃ tag codes c sd, dictGet [("260", some ['c'])] tag = some (some codes) ∧
      c ∈ codes ∧ marcTest.get_subfield tag c = some sd ∧
      "F260c" = "F" ++ tag ++ String.singleton c ∧
      (PyValue.list ["c2000."]).isList = sd.repeatable) :=
  row_value_list_iff_repeatable (by unfold TagsLen3; decide)
    (show _mapping marcTest ["260c"] = .ok [("260", some ['c'])] from rfl)
    (show projectRecord marcTest [("260", some ['c'])]
        ⟨[PyField.dataField "260" [⟨'c', "c2000."⟩]]⟩ =
      .ok [("F260c", PyValue.list ["c2000."])] from rfl)
    (show dictGet [("F260c", PyValue.list ["c2000."])] "F260c" =
      some (PyValue.list ["c2000."]) from rfl)

/-- Claim C6: compiling an empty rule list produces a mapping whose keys are
exactly all field tags known to the schema document, each mapped to None
(whole-field stringification), in schema order. (An absent rule list takes
the same `rules is None` branch in the source.) -/
theorem empty_rules_full_schema_mapping {marc : MARC} (h3 : TagsLen3 marc)
    (hnd : (marc.fields.map Field.tag).Nodup) :
    _mapping marc [] = .ok (marc.fields.map (fun f => (f.tag, none))) := by
  unfold _mapping
  simp only [List.length_nil, eq_self_iff_true, if_true]
  rw [mapping_go_default h3 (marc.fields.map Field.tag) [] ?_ hnd ?_]
  · simp [List.map_map]
  · intro t ht
    obtain ⟨f, hf, rfl⟩ := List.mem_map.mp ht
    exact ⟨f, hf, rfl⟩
  · intro t _
    rfl

/-- Witness for C6 at the concrete test schema. -/
theorem empty_rules_full_schema_mapping_witness :
    _mapping marcTest [] = .ok (marcTest.fields.map (fun f => (f.tag, none))) :=
  empty_rules_full_schema_mapping (by unfold TagsLen3; decide) (by decide)

/-- Claim C7: when the same field tag appears in several rules of one list,
the compiled mapping's value for that tag equals the subfield set (or None)
derived from the last rule mentioning the tag; earlier subfield sets are not
merged. -/
theorem last_rule_wins {marc : MARC} {rules : List String} {mapping : Mapping}
    {tag : String} {rule : String}
    (hne : rules ≠ []) (hcomp : _mapping marc rules = .ok mapping)
    (hlast : lastRuleFor tag rules = some rule) :
    dictGet mapping tag = some (valueOfRule rule) := by
  unfold _mapping at hcomp
  rw [if_neg (fun h => hne (List.eq_nil_of_length_eq_zero h))] at hcomp
  have h := mapping_go_lookup hcomp tag
  rw [hlast] at h
  exact h

/-- Witness for C7: for rules ["245a", "245c"] the mapping holds the last
rule's subfield set ['c'], not the merged set. -/
theorem last_rule_wins_witness :
    dictGet [("245", some ['c'])] "245" = some (valueOfRule "245c") ∧
    valueOfRule "245c" = some ['c'] ∧ valueOfRule "245c" ≠ some ['a', 'c'] :=
  ⟨last_rule_wins (by simp)
      (show _mapping marcTest ["245a", "245c"] = .ok [("245", some ['c'])] from rfl)
      (show lastRuleFor "245" ["245a", "245c"] = some "245c" from rfl),
    rfl, by decide⟩

/-- Claim C5 is contradicted by the code on its last conjunct: with an
unknown tag or unknown subfield code, compilation does fail before any
record is read and the failure is surfaced, but the surfaced message comes
from MARC.get_field / Field.get_subfield (SchemaFieldError or
SchemaSubfieldError) and names only the parsed 3-character tag or the
1-character code, never the offending rule text; the
`raise Exception("unknown MARC field/subfield in mapping rule: ...")`
statements in _mapping that would name the rule are unreachable because the
lookups raise instead of returning None. -/
theorem rule_error_lacks_rule_text :
    _mapping marcTest ["999a"] =
      .error "999 is not a defined field tag in Avram schema" ∧
    strContains "999 is not a defined field tag in Avram schema" "999a" = false ∧
    _mapping marcTest ["245x"] =
      .error "x is not a valid subfield in field 245" ∧
    strContains "x is not a valid subfield in field 245" "245x" = false ∧
    (∀ (input : List (Option PyRecord)) (batch : Int),
      records_iter marcTest ["999a"] input batch =
        .error "999 is not a defined field tag in Avram schema") := by
  refine ⟨rfl, by decide, rfl, by decide, ?_⟩
  intro input batch
  show (_mapping marcTest ["999a"] >>= fun mapping =>
    records_iter_go marcTest mapping input [] batch) = _
  rw [show _mapping marcTest ["999a"] =
    .error "999 is not a defined field tag in Avram schema" from rfl]
  rfl

theorem intercalate_go_spec (l : List String) :
    ∀ acc : String, String.intercalate.go acc " " l = acc ++ joinSp l := by
  induction l with
  | nil => intro acc; rw [joinSp, String.append_empty]; rfl
  | cons a as ih =>
    intro acc
    show String.intercalate.go (acc ++ " " ++ a) " " as = _
    rw [ih, joinSp]
    simp [String.append_assoc]

theorem spaceSeparated_cons_eq_joinSp :
    ∀ (rest : List String) (w : String), spaceSeparated (w :: rest) = w ++ joinSp rest := by
  intro rest
  induction rest with
  | nil =>
    intro w
    show w = w ++ ""
    rw [String.append_empty]
  | cons x xs ih =>
    intro w
    show w ++ " " ++ spaceSeparated (x :: xs) = w ++ (" " ++ x ++ joinSp xs)
    rw [ih x]
    simp [String.append_assoc]

theorem intercalate_space_eq_spaceSeparated (vs : List String) :
    String.intercalate " " vs = spaceSeparated vs := by
  cases vs with
  | nil => rfl
  | cons v rest =>
    show String.intercalate.go v " " rest = _
    rw [intercalate_go_spec rest v, spaceSeparated_cons_eq_joinSp rest v]

/-- Claim C8: a control field (no subfields) stringifies to its raw data
payload, with the empty string substituted when the payload is absent; a
whole data field stringifies to its subfield values concatenated in field
order, separated by single spaces (spaceSeparated spells the separation
out). -/
theorem stringify_field_spec :
    (∀ tag, _stringify_field (PyField.control tag none) = "") ∧
    (∀ tag s, _stringify_field (PyField.control tag (some s)) = s) ∧
    (∀ tag sfs, _stringify_field (PyField.dataField tag sfs) =
      spaceSeparated (sfs.map PySubfield.value)) :=
  ⟨fun _ => rfl, fun _ _ => rfl,
    fun _ sfs => intercalate_space_eq_spaceSeparated (sfs.map PySubfield.value)⟩

/-- Claim C3 is contradicted by the code for subfield-level columns: the CSV
header (_columns) and the JSONL row keys (records_iter) use F<tag><code>,
but _make_parquet_schema builds its column name with
f-string interpolation of the Subfield OBJECT fetched from the schema
(`f"F{field_tag}{sf}"`) instead of the code `sf_code`, so the parquet field
name embeds Python's default object repr — abstracted as objRepr — and
differs from F<tag><code> for any repr longer than one character, which the
default `<marctable.marc.Subfield object at 0x...>` always is. Whole-field
columns are unaffected. Rules ["650v"] exhibit the mismatch. -/
theorem parquet_subfield_column_name_bug (objRepr : Subfield → String)
    (hrepr : ∀ sf, 1 < (objRepr sf).length) :
    _make_parquet_schema marcTest ["650v"] objRepr =
      .ok [("F" ++ "650" ++ objRepr ⟨'v', "Form subdivision", true⟩,
            ArrowType.listOfString)] ∧
    _columns [("650", some ['v'])] = ["F650v"] ∧
    records_iter marcTest ["650v"]
        [some ⟨[PyField.dataField "650" [⟨'v', "Form."⟩]]⟩] 1 =
      .ok [[[("F650v", PyValue.list ["Form."])]]] ∧
    "F" ++ "650" ++ objRepr ⟨'v', "Form subdivision", true⟩ ≠ "F650v" := by
  refine ⟨rfl, rfl, rfl, ?_⟩
  intro h
  have h2 := congrArg (fun s => s.data.length) h
  simp [String.data_append] at h2
  have h3 := hrepr ⟨'v', "Form subdivision", true⟩
  have h4 : (objRepr ⟨'v', "Form subdivision", true⟩).data.length =
      (objRepr ⟨'v', "Form subdivision", true⟩).length := rfl
  omega

/-- Witness for C3 with a concrete stand-in for the default object repr. -/
theorem parquet_subfield_column_name_bug_witness :
    _make_parquet_schema marcTest ["650v"]
        (fun _ => "<marctable.marc.Subfield object at 0x7f>") =
      .ok [("F" ++ "650" ++ "<marctable.marc.Subfield object at 0x7f>",
            ArrowType.listOfString)] ∧
    _columns [("650", some ['v'])] = ["F650v"] ∧
    records_iter marcTest ["650v"]
        [some ⟨[PyField.dataField "650" [⟨'v', "Form."⟩]]⟩] 1 =
      .ok [[[("F650v", PyValue.list ["Form."])]]] ∧
    "F" ++ "650" ++ "<marctable.marc.Subfield object at 0x7f>" ≠ "F650v" :=
  parquet_subfield_column_name_bug
    (fun _ => "<marctable.marc.Subfield object at 0x7f>")
    (fun _ =>
      show 1 < ("<marctable.marc.Subfield object at 0x7f>" : String).length by decide)

/-! Lemmas about the batching pipeline. -/

theorem chunks_nil {α : Type} (B : Nat) : chunks B ([] : List α) = [] := by
  simp [chunks]

theorem chunks_cons {α : Type} (B : Nat) (x : α) (xs : List α) :
    chunks B (x :: xs) =
      if B = 0 then [x :: xs]
      else (x :: xs.take (B - 1)) :: chunks B (xs.drop (B - 1)) := by
  rw [chunks]

theorem chunks_take_drop {α : Type} {B : Nat} (hB : 0 < B) (l : List α)
    (hne : l ≠ []) : chunks B l = l.take B :: chunks B (l.drop B) := by
  cases l with
  | nil => exact absurd rfl hne
  | cons x xs =>
    rw [chunks_cons, if_neg (by omega)]
    obtain ⟨n, rfl⟩ : ∃ n, B = n + 1 := ⟨B - 1, by omega⟩
    simp [List.take_succ_cons, List.drop_succ_cons]

theorem chunks_eq_single {α : Type} {B : Nat} {l : List α} (hne : l ≠ [])
    (hlen : B = 0 ∨ l.length ≤ B) : chunks B l = [l] := by
  by_cases hB : B = 0
  · subst hB
    cases l with
    | nil => exact absurd rfl hne
    | cons x xs => rw [chunks_cons, if_pos rfl]
  · have hl : l.length ≤ B := by
      rcases hlen with h | h
      · exact absurd h hB
      · exact h
    rw [chunks_take_drop (by omega) l hne, List.take_of_length_le hl,
      List.drop_of_length_le hl, chunks_nil]

theorem chunks_append_full {α : Type} {B : Nat} {l1 : List α} (hB : 0 < B)
    (hlen : l1.length = B) (l2 : List α) :
    chunks B (l1 ++ l2) = l1 :: chunks B l2 := by
  have hne : l1 ++ l2 ≠ [] := by
    intro h
    obtain ⟨h1, h2⟩ := List.append_eq_nil.mp h
    subst h1
    simp at hlen
    omega
  rw [chunks_take_drop hB _ hne, ← hlen, List.take_left, List.drop_left]

theorem chunks_spec {α : Type} {B : Nat} (hB : 0 < B) :
    ∀ (n : Nat) (l : List α), l.length ≤ n →
      (chunks B l).length = (l.length + B - 1) / B ∧
      (∀ b ∈ (chunks B l).dropLast, b.length = B) ∧
      (∀ b ∈ chunks B l, 0 < b.length ∧ b.length ≤ B) ∧
      (chunks B l).flatten = l := by
  intro n
  induction n with
  | zero =>
    intro l hl
    have he : l = [] := List.eq_nil_of_length_eq_zero (by omega)
    subst he
    refine ⟨?_, by simp [chunks_nil], by simp [chunks_nil], by simp [chunks_nil]⟩
    rw [chunks_nil]
    simp
    exact (Nat.div_eq_of_lt (by omega)).symm
  | succ n ih =>
    intro l hl
    cases l with
    | nil =>
      refine ⟨?_, by simp [chunks_nil], by simp [chunks_nil], by simp [chunks_nil]⟩
      rw [chunks_nil]
      simp
      exact (Nat.div_eq_of_lt (by omega)).symm
    | cons x xs =>
      have hlc : (x :: xs).length = xs.length + 1 := by simp
      by_cases hsmall : (x :: xs).length ≤ B
      · rw [chunks_eq_single (by simp) (Or.inr hsmall)]
        have hx : 0 < (x :: xs).length := by simp
        refine ⟨?_, by simp, ?_, by simp⟩
        · simp only [List.length_singleton]
          have e2 : (x :: xs).length + B - 1 = ((x :: xs).length - 1) + B := by omega
          rw [e2, Nat.add_div_right _ hB, Nat.div_eq_of_lt (by omega)]
        · intro b hb
          simp at hb
          subst hb
          exact ⟨hx, hsmall⟩
      · push_neg at hsmall
        rw [chunks_take_drop hB _ (by simp)]
        have hdrop : ((x :: xs).drop B).length ≤ n := by
          rw [List.length_drop]
          omega
        obtain ⟨ih1, ih2, ih3, ih4⟩ := ih ((x :: xs).drop B) hdrop
        have htake : ((x :: xs).take B).length = B := by
          rw [List.length_take]
          omega
        have hdne : (x :: xs).drop B ≠ [] := by
          intro h
          have hh := congrArg List.length h
          rw [List.length_drop] at hh
          simp at hh
          omega
        have hrne : chunks B ((x :: xs).drop B) ≠ [] := by
          intro h
          rw [h] at ih4
          exact hdne ih4.symm
        refine ⟨?_, ?_, ?_, ?_⟩
        · rw [List.length_cons, ih1, List.length_drop]
          have e1 : (x :: xs).length - B + B - 1 = (x :: xs).length - 1 := by omega
          have e2 : (x :: xs).length + B - 1 = ((x :: xs).length - 1) + B := by omega
          rw [e1, e2, Nat.add_div_right _ hB]
        · intro b hb
          rw [List.dropLast_cons_of_ne_nil hrne] at hb
          rcases List.mem_cons.mp hb with rfl | hb'
          · exact htake
          · exact ih2 b hb'
        · intro b hb
          rcases List.mem_cons.mp hb with rfl | hb'
          · rw [htake]
            exact ⟨hB, le_refl B⟩
          · exact ih3 b hb'
        · show (x :: xs).take B ++ (chunks B ((x :: xs).drop B)).flatten = _
          rw [ih4, List.take_append_drop]

theorem projRows_ok {marc : MARC} {mapping : Mapping} (h3 : TagsLen3 marc)
    (hwf : MappingWF marc mapping) :
    ∀ input : List (Option PyRecord), ∃ rs, projRows marc mapping input = .ok rs ∧
      rs.length = decodedCount input := by
  intro input
  induction input with
  | nil => exact ⟨[], rfl, rfl⟩
  | cons x rest ih =>
    obtain ⟨rs, hrs, hlen⟩ := ih
    cases x with
    | none =>
      refine ⟨rs, ?_, hlen⟩
      show projRows marc mapping rest = .ok rs
      exact hrs
    | some rec =>
      obtain ⟨row, hrow, _⟩ :=
        projectFields_ok h3 hwf rec.fields [] (goodRow_nil marc mapping)
      have hrow' : projectRecord marc mapping rec = .ok row := hrow
      refine ⟨row :: rs, ?_, by simp [decodedCount, hlen]⟩
      show (projectRecord marc mapping rec >>= fun r =>
        projRows marc mapping rest >>= fun rs' => .ok (r :: rs')) = _
      rw [hrow', exceptBind_ok, hrs, exceptBind_ok]

theorem records_iter_go_chunks {marc : MARC} {mapping : Mapping} :
    ∀ (input : List (Option PyRecord)) (rows : List Row) (batch : Int),
      (0 < batch → (rows.length : Int) < batch) →
      records_iter_go marc mapping input rows batch =
        match projRows marc mapping input with
        | .error e => .error e
        | .ok rs => .ok (chunks batch.toNat (rows ++ rs)) := by
  intro input
  induction input with
  | nil =>
    intro rows batch hinv
    show Except.ok (if rows.length > 0 then [rows] else []) = _
    cases rows with
    | nil => simp [projRows, chunks_nil]
    | cons x xs =>
      show Except.ok (if (x :: xs).length > 0 then [x :: xs] else []) = _
      rw [if_pos (by simp)]
      show _ = Except.ok (chunks batch.toNat ((x :: xs) ++ []))
      rw [List.append_nil]
      rw [chunks_eq_single (by simp) ?_]
      by_cases hb : 0 < batch
      · right
        have := hinv hb
        simp at this ⊢
        omega
      · left
        omega
  | cons x rest ih =>
    intro rows batch hinv
    cases x with
    | none =>
      show records_iter_go marc mapping rest rows batch = _
      rw [ih rows batch hinv]
      rfl
    | some rec =>
      show (projectRecord marc mapping rec >>= fun r =>
        if 0 < batch ∧ ((rows ++ [r]).length : Int) = batch then
          records_iter_go marc mapping rest [] batch >>= fun out =>
            .ok ((rows ++ [r]) :: out)
        else records_iter_go marc mapping rest (rows ++ [r]) batch) = _
      cases hp : projectRecord marc mapping rec with
      | error e =>
        simp only [exceptBind_error]
        show _ = (match (projectRecord marc mapping rec >>= fun r =>
          projRows marc mapping rest >>= fun rs' => Except.ok (r :: rs')) with
          | .error e => Except.error e
          | .ok rs => Except.ok (chunks batch.toNat (rows ++ rs)))
        rw [hp, exceptBind_error]
      | ok r =>
        simp only [exceptBind_ok]
        have hrhs : (match projRows marc mapping (some rec :: rest) with
            | .error e => Except.error e
            | .ok rs => Except.ok (chunks batch.toNat (rows ++ rs))) =
            (match projRows marc mapping rest with
            | .error e => Except.error e
            | .ok rs => Except.ok (chunks batch.toNat (rows ++ r :: rs))) := by
          show (match (projectRecord marc mapping rec >>= fun r' =>
            projRows marc mapping rest >>= fun rs' => Except.ok (r' :: rs')) with
            | .error e => Except.error e
            | .ok rs => Except.ok (chunks batch.toNat (rows ++ rs))) = _
          rw [hp, exceptBind_ok]
          cases hpr : projRows marc mapping rest with
          | error e => rfl
          | ok rs => rfl
        rw [hrhs]
        by_cases hcond : 0 < batch ∧ ((rows ++ [r]).length : Int) = batch
        · rw [if_pos hcond]
          rw [ih [] batch (fun hb => by simpa using hb)]
          cases hpr : projRows marc mapping rest with
          | error e => rfl
          | ok rs =>
            simp only [exceptBind_ok, List.nil_append]
            show Except.ok ((rows ++ [r]) :: chunks batch.toNat rs) = _
            rw [show rows ++ r :: rs = (rows ++ [r]) ++ rs from by simp]
            rw [chunks_append_full (by omega) (by
              have := hcond.2
              simp at this ⊢
              omega) rs]
        · rw [if_neg hcond]
          have hinv' : 0 < batch → ((rows ++ [r]).length : Int) < batch := by
            intro hb
            have h1 := hinv hb
            have h2 : ¬ ((rows ++ [r]).length : Int) = batch :=
              fun he => hcond ⟨hb, he⟩
            simp at h2 ⊢
            omega
          rw [ih (rows ++ [r]) batch hinv']
          cases hpr : projRows marc mapping rest with
          | error e => rfl
          | ok rs =>
            show Except.ok (chunks batch.toNat ((rows ++ [r]) ++ rs)) = _
            rw [show (rows ++ [r]) ++ rs = rows ++ r :: rs from by simp]

theorem records_iter_go_all_none {marc : MARC} {mapping : Mapping} :
    ∀ (input : List (Option PyRecord)) (batch : Int), (∀ x ∈ input, x = none) →
      records_iter_go marc mapping input [] batch = .ok [] := by
  intro input
  induction input with
  | nil => intro batch _; rfl
  | cons x rest ih =>
    intro batch hall
    cases x with
    | none => exact ih batch (fun y hy => hall y (List.mem_cons_of_mem _ hy))
    | some rec => exact absurd (hall (some rec) (List.mem_cons_self _ _)) (by simp)

/-- Claim C10: if the input stream yields zero decodable records,
records_iter yields no batch at all — including when batch = 0 — so
to_dataframe, which takes next() of the batch-0 iterator, hits StopIteration
(modelled as head? of the empty batch list being none) instead of returning
an empty table. -/
theorem empty_stream_no_batches {marc : MARC} {rules : List String}
    {mapping : Mapping} {input : List (Option PyRecord)}
    (hcomp : _mapping marc rules = .ok mapping)
    (hempty : ∀ x ∈ input, x = none) (batch : Int) :
    records_iter marc rules input batch = .ok [] ∧
    to_dataframe marc rules input = .ok none := by
  have hri : ∀ b : Int, records_iter marc rules input b = .ok [] := by
    intro b
    show (_mapping marc rules >>= fun m =>
      records_iter_go marc m input [] b) = _
    rw [hcomp, exceptBind_ok, records_iter_go_all_none input b hempty]
  refine ⟨hri batch, ?_⟩
  unfold to_dataframe dataframe_iter
  rw [hcomp, exceptBind_ok, hri 0, exceptBind_ok]
  rfl

/-- Witness for C10: a stream of two undecodable records yields no batch,
and to_dataframe yields none (StopIteration). -/
theorem empty_stream_no_batches_witness :
    records_iter marcTest ["245"] [none, none] 7 = .ok [] ∧
    to_dataframe marcTest ["245"] [none, none] = .ok none :=
  empty_stream_no_batches
    (show _mapping marcTest ["245"] = .ok [("245", none)] from rfl)
    (by decide) 7

/-- Claim C4 as stated is refuted on the code in one corner: for batch
size 0 with an empty stream, records_iter emits no batch at all, not "exactly
one batch containing all records" — the final yield is guarded by
len(rows) > 0. -/
theorem batch_zero_empty_stream_counterexample :
    records_iter marcTest ["245"] [] 0 = .ok [] ∧
    ¬ ∃ b : List Row, records_iter marcTest ["245"] [] 0 = .ok [b] := by
  refine ⟨rfl, ?_⟩
  rintro ⟨b, hb⟩
  have h2 : (Except.ok ([] : List (List Row)) : Except String (List (List Row))) =
      .ok [b] := hb
  simp at h2

/-- Claim C4 amended: for batch size B > 0 the pipeline emits
ceil(totalRecords / B) batches, each of size B except possibly the last
(which is nonempty and at most B), jointly containing all projected rows in
order; for B = 0 it emits exactly one batch containing all records when at
least one decodable record exists, and no batch at all for an empty
stream. -/
theorem batching_spec {marc : MARC} {rules : List String} {mapping : Mapping}
    {input : List (Option PyRecord)} {batch : Int} (h3 : TagsLen3 marc)
    (hcomp : _mapping marc rules = .ok mapping) :
    ∃ rs : List Row, projRows marc mapping input = .ok rs ∧
      rs.length = decodedCount input ∧
      records_iter marc rules input batch = .ok (chunks batch.toNat rs) ∧
      (0 < batch →
        (chunks batch.toNat rs).length =
          (decodedCount input + batch.toNat - 1) / batch.toNat ∧
        (∀ b ∈ (chunks batch.toNat rs).dropLast, b.length = batch.toNat) ∧
        (∀ b ∈ chunks batch.toNat rs, 0 < b.length ∧ b.length ≤ batch.toNat) ∧
        (chunks batch.toNat rs).flatten = rs) ∧
      (batch = 0 → 1 ≤ decodedCount input → chunks batch.toNat rs = [rs]) ∧
      (batch = 0 → decodedCount input = 0 → chunks batch.toNat rs = []) := by
  obtain ⟨rs, hrs, hlen⟩ := projRows_ok h3 (_mapping_wf hcomp) input
  refine ⟨rs, hrs, hlen, ?_, ?_, ?_, ?_⟩
  · show (_mapping marc rules >>= fun m =>
      records_iter_go marc m input [] batch) = _
    rw [hcomp, exceptBind_ok,
      records_iter_go_chunks input [] batch (fun hb => by simpa using hb), hrs]
    show Except.ok (chunks batch.toNat ([] ++ rs)) = _
    rw [List.nil_append]
  · intro hb
    have h0 : 0 < batch.toNat := by omega
    obtain ⟨c1, c2, c3, c4⟩ := chunks_spec h0 rs.length rs (le_refl _)
    rw [hlen] at c1
    exact ⟨c1, c2, c3, c4⟩
  · intro hb hN
    subst hb
    refine chunks_eq_single ?_ (Or.inl rfl)
    intro h
    rw [h] at hlen
    simp at hlen
    omega
  · intro hb hN0
    subst hb
    have he : rs = [] := List.eq_nil_of_length_eq_zero (hlen.trans hN0)
    subst he
    exact chunks_nil _

/-- Witness for the amended C4 at a concrete stream of three decodable
records (one undecodable) and batch size 2. -/
theorem batching_spec_witness :
    ∃ rs : List Row, projRows marcTest [("245", none)]
        [some ⟨[]⟩, none, some ⟨[]⟩, some ⟨[]⟩] = .ok rs ∧
      rs.length = decodedCount [some ⟨[]⟩, none, some ⟨[]⟩, some ⟨[]⟩] ∧
      records_iter marcTest ["245"] [some ⟨[]⟩, none, some ⟨[]⟩, some ⟨[]⟩] 2 =
        .ok (chunks (2 : Int).toNat rs) ∧
      ((0 : Int) < 2 →
        (chunks (2 : Int).toNat rs).length =
          (decodedCount [some ⟨[]⟩, none, some ⟨[]⟩, some ⟨[]⟩] +
            (2 : Int).toNat - 1) / (2 : Int).toNat ∧
        (∀ b ∈ (chunks (2 : Int).toNat rs).dropLast, b.length = (2 : Int).toNat) ∧
        (∀ b ∈ chunks (2 : Int).toNat rs,
          0 < b.length ∧ b.length ≤ (2 : Int).toNat) ∧
        (chunks (2 : Int).toNat rs).flatten = rs) ∧
      ((2 : Int) = 0 →
        1 ≤ decodedCount [some ⟨[]⟩, none, some ⟨[]⟩, some ⟨[]⟩] →
        chunks (2 : Int).toNat rs = [rs]) ∧
      ((2 : Int) = 0 →
        decodedCount [some ⟨[]⟩, none, some ⟨[]⟩, some ⟨[]⟩] = 0 →
        chunks (2 : Int).toNat rs = []) :=
  batching_spec (by unfold TagsLen3; decide)
    (show _mapping marcTest ["245"] = .ok [("245", none)] from rfl)

end Marctable
